import Mathlib

/- Shallow embedding of scripts/update_antigravity_version.py.

   Strings are modelled as List Char.  The two regular expressions of the
   script,

     VERSION_PATTERN         matches  antigravity/(three dot-separated digit runs)
     TARBALL_VERSION_PATTERN matches  /(three dot-separated digit runs)-digits/

   are embedded as deterministic maximal-munch matchers.  For these two
   patterns maximal munch coincides with Python regex backtracking
   semantics: every digit-run in them is followed in the pattern by a
   character that is not a digit ('.', '-' or '/'), so the greedy match of
   each digit-run is the only one a backtracking engine could accept.
   The digit class is modelled as the ASCII digits, matching the script's
   use on ASCII file contents and URLs.  re.search is leftmost search;
   re.sub is leftmost, non-overlapping, resuming after each whole match. -/

set_option autoImplicit false

def uaLit : List Char := ['a', 'n', 't', 'i', 'g', 'r', 'a', 'v', 'i', 't', 'y', '/']

def uaTail : List Char := ['n', 't', 'i', 'g', 'r', 'a', 'v', 'i', 't', 'y', '/']

def takeDigits : List Char → List Char × List Char
  | [] => ([], [])
  | c :: cs =>
    if c.isDigit then
      let p := takeDigits cs
      (c :: p.1, p.2)
    else ([], c :: cs)

def noDigitHead : List Char → Bool
  | [] => true
  | c :: _ => !c.isDigit

def matchNum (s : List Char) : Option (List Char × List Char) :=
  let p := takeDigits s
  if p.1.isEmpty then none else some p

def expectChar (a : Char) : List Char → Option (List Char)
  | [] => none
  | c :: r => if c = a then some r else none

def matchVersion (s : List Char) : Option (List Char × List Char) :=
  match matchNum s with
  | none => none
  | some (d1, r1) =>
    match expectChar '.' r1 with
    | none => none
    | some r2 =>
      match matchNum r2 with
      | none => none
      | some (d2, r3) =>
        match expectChar '.' r3 with
        | none => none
        | some r4 =>
          match matchNum r4 with
          | none => none
          | some (d3, r5) => some (d1 ++ '.' :: (d2 ++ '.' :: d3), r5)

/- Shape of a VersionToken: three nonempty ASCII-digit runs separated by
   dots, exactly what the capture group of the two patterns produces. -/
def versionShape (t : List Char) : Prop :=
  ∃ d1 d2 d3 : List Char,
    d1 ≠ [] ∧ d2 ≠ [] ∧ d3 ≠ [] ∧
    d1.all Char.isDigit = true ∧ d2.all Char.isDigit = true ∧
    d3.all Char.isDigit = true ∧
    t = d1 ++ '.' :: (d2 ++ '.' :: d3)

def matchLit : List Char → List Char → Option (List Char)
  | [], s => some s
  | _ :: _, [] => none
  | c :: cs, d :: ds => if d = c then matchLit cs ds else none

/- One attempt of VERSION_PATTERN at the start of `s`: the literal
   "antigravity/" followed by the version group.  On success, returns the
   captured group together with the remainder after the whole match. -/
def matchUAAt (s : List Char) : Option (List Char × List Char) :=
  match matchLit uaLit s with
  | none => none
  | some r => matchVersion r

/- One attempt of TARBALL_VERSION_PATTERN at the start of `s`. -/
def matchTarballAt (s : List Char) : Option (List Char × List Char) :=
  match expectChar '/' s with
  | none => none
  | some r =>
    match matchVersion r with
    | none => none
    | some (t, rest) =>
      match expectChar '-' rest with
      | none => none
      | some r2 =>
        match matchNum r2 with
        | none => none
        | some (_, r3) =>
          match expectChar '/' r3 with
          | none => none
          | some r4 => some (t, r4)

/- re.search with VERSION_PATTERN: leftmost match, returning group(1). -/
def searchUA : List Char → Option (List Char)
  | [] => none
  | c :: rest =>
    match matchUAAt (c :: rest) with
    | some p => some p.1
    | none => searchUA rest

/- re.search with TARBALL_VERSION_PATTERN: leftmost match, group(1). -/
def searchTarball : List Char → Option (List Char)
  | [] => none
  | c :: rest =>
    match matchTarballAt (c :: rest) with
    | some p => some p.1
    | none => searchTarball rest

/- VERSION_PATTERN.sub (replace every non-overlapping match with
   "antigravity/" ++ X), written with explicit fuel so that it is
   structurally recursive; `subUA` instantiates the fuel with the length
   of the input, which is always sufficient. -/
def subUAGo (X : List Char) : Nat → List Char → List Char
  | _, [] => []
  | 0, s => s
  | fuel + 1, c :: rest =>
    match matchUAAt (c :: rest) with
    | some p => uaLit ++ (X ++ subUAGo X fuel p.2)
    | none => c :: subUAGo X fuel rest

def subUA (X s : List Char) : List Char := subUAGo X s.length s

/- get_current_version: the tracked file is modelled as
   `Option (List Char)`: `none` when CONSTANTS_PATH does not exist,
   `some content` otherwise.  Returns VERSION_PATTERN.search(content)
   group(1), or None. -/
def get_current_version (file : Option (List Char)) : Option (List Char) :=
  match file with
  | none => none
  | some content => searchUA content

/- Result of update_version: the returned bool, whether write_text was
   called, how many times read_text was called, and the file afterwards. -/
structure UpdateResult where
  ok : Bool
  written : Bool
  reads : Nat
  fileAfter : Option (List Char)

/- update_version(new_version, dry_run): re-reads the file, substitutes
   every VERSION_PATTERN match, and writes only when the contents changed
   and dry_run is off. -/
def update_version (new_version : List Char) (dry_run : Bool)
    (file : Option (List Char)) : UpdateResult :=
  match file with
  | none => ⟨false, false, 0, none⟩
  | some content =>
    let new_content := subUA new_version content
    if content = new_content then ⟨true, false, 1, some content⟩
    else if dry_run then ⟨true, false, 1, some content⟩
    else ⟨true, true, 1, some new_content⟩

/- extract_version_from_url: TARBALL_VERSION_PATTERN.search(url). -/
def extract_version_from_url (url : List Char) : Option (List Char) :=
  searchTarball url

/- Parsed command-line arguments.  `version` and `url` are `none` when the
   flag is absent (argparse default None). -/
structure Args where
  check : Bool
  dry_run : Bool
  version : Option (List Char)
  url : Option (List Char)

/- Python truthiness of an optional string: None and "" are falsy. -/
def truthy : Option (List Char) → Bool
  | none => false
  | some s => !s.isEmpty

/- The if/elif chain of main() that picks the latest version.  The live
   page fetch (fetch_latest_version, an external playwright collaborator)
   is modelled by the oracle `fetched`: `some v` when the fetch succeeded
   and parsed to v, `none` on any of its failures. -/
def resolve_latest (args : Args) (fetched : Option (List Char)) :
    Option (List Char) :=
  if truthy args.version then args.version
  else if truthy args.url then extract_version_from_url (args.url.getD [])
  else fetched

/- Observable outcome of one run of main(): the process exit code, whether
   the tracked file was written, how many times its contents were read
   from disk, and the file afterwards. -/
structure RunResult where
  exit : Nat
  wrote : Bool
  reads : Nat
  fileAfter : Option (List Char)

/- main() of the script (the name `main` itself is reserved by Lean for the
   program entry point): read current, resolve latest, compare, then check / dry-run /
   update, mirroring the control flow of the script line by line. -/
def script_main (args : Args) (file : Option (List Char))
    (fetched : Option (List Char)) : RunResult :=
  let current := get_current_version file
  let creads : Nat := match file with | none => 0 | some _ => 1
  if truthy current = false then ⟨1, false, creads, file⟩
  else
    let cur := current.getD []
    let latest := resolve_latest args fetched
    if truthy latest = false then ⟨1, false, creads, file⟩
    else
      let l := latest.getD []
      if cur = l then ⟨0, false, creads, file⟩
      else if args.check then ⟨1, false, creads, file⟩
      else
        let r := update_version l args.dry_run file
        ⟨if r.ok then 0 else 1, r.written, creads + r.reads, r.fileAfter⟩

/- ------------------------------------------------------------------ -/
/- Basic lemmas about the scanning primitives.                         -/
/- ------------------------------------------------------------------ -/

theorem takeDigits_append (w : List Char) (c : Char) (x : List Char)
    (hc : c.isDigit = false) :
    takeDigits (w ++ c :: x) = ((takeDigits w).1, (takeDigits w).2 ++ c :: x) := by
  induction w with
  | nil => simp [takeDigits, hc]
  | cons a w ih =>
    by_cases ha : a.isDigit
    · simp [takeDigits, ha, ih]
    · simp [takeDigits, ha]

theorem takeDigits_split (s : List Char) :
    (takeDigits s).1 ++ (takeDigits s).2 = s := by
  induction s with
  | nil => rfl
  | cons a s ih =>
    by_cases ha : a.isDigit
    · simp [takeDigits, ha, ih]
    · simp [takeDigits, ha]

theorem takeDigits_all (s : List Char) :
    (takeDigits s).1.all Char.isDigit = true := by
  induction s with
  | nil => rfl
  | cons a s ih =>
    by_cases ha : a.isDigit
    · simp [takeDigits, ha, ih]
    · simp [takeDigits, ha]

theorem takeDigits_noDigitHead (s : List Char) :
    noDigitHead (takeDigits s).2 = true := by
  induction s with
  | nil => rfl
  | cons a s ih =>
    by_cases ha : a.isDigit
    · simp [takeDigits, ha, ih]
    · simp [takeDigits, noDigitHead, ha]

theorem takeDigits_exact (d r : List Char) (hd : d.all Char.isDigit = true)
    (hr : noDigitHead r = true) : takeDigits (d ++ r) = (d, r) := by
  induction d with
  | nil =>
    cases r with
    | nil => rfl
    | cons a r =>
      simp only [noDigitHead] at hr
      simp [takeDigits, Bool.not_eq_true' .. ▸ hr]
  | cons a d ih =>
    simp only [List.all_cons, Bool.and_eq_true] at hd
    simp [takeDigits, hd.1, ih hd.2]

theorem matchNum_split {s d r : List Char} (h : matchNum s = some (d, r)) :
    s = d ++ r ∧ d ≠ [] ∧ d.all Char.isDigit = true ∧ noDigitHead r = true := by
  unfold matchNum at h
  by_cases he : (takeDigits s).1.isEmpty
  · simp [he] at h
  · simp only [he, if_false] at h
    have h1 : (takeDigits s).1 = d := congrArg Prod.fst (Option.some.inj h)
    have h2 : (takeDigits s).2 = r := congrArg Prod.snd (Option.some.inj h)
    refine ⟨?_, ?_, ?_, ?_⟩
    · rw [← h1, ← h2, takeDigits_split]
    · rw [← h1]; simpa using he
    · rw [← h1]; exact takeDigits_all s
    · rw [← h2]; exact takeDigits_noDigitHead s

theorem matchNum_exact (d r : List Char) (h1 : d ≠ [])
    (hd : d.all Char.isDigit = true) (hr : noDigitHead r = true) :
    matchNum (d ++ r) = some (d, r) := by
  unfold matchNum
  rw [takeDigits_exact d r hd hr]
  simp [h1]

theorem matchNum_append (w : List Char) (c : Char) (x : List Char)
    (hc : c.isDigit = false) :
    matchNum (w ++ c :: x) = (matchNum w).map (fun p => (p.1, p.2 ++ c :: x)) := by
  unfold matchNum
  rw [takeDigits_append w c x hc]
  by_cases he : (takeDigits w).1.isEmpty
  · simp [he]
  · simp [he]

theorem expectChar_append (a : Char) (r : List Char) (c : Char) (x : List Char)
    (hc : c ≠ a) :
    expectChar a (r ++ c :: x) = (expectChar a r).map (fun z => z ++ c :: x) := by
  cases r with
  | nil => simp [expectChar, hc]
  | cons b r =>
    by_cases hb : b = a
    · simp [expectChar, hb]
    · simp [expectChar, hb]

theorem matchLit_iff (lit : List Char) : ∀ {s r : List Char},
    matchLit lit s = some r ↔ s = lit ++ r := by
  induction lit with
  | nil =>
    intro s r
    simp [matchLit, eq_comm]
  | cons c cs ih =>
    intro s r
    cases s with
    | nil => simp [matchLit]
    | cons d ds =>
      by_cases hd : d = c
      · subst hd
        simp [matchLit, ih]
      · simp [matchLit, hd]

theorem matchLit_self (lit s : List Char) : matchLit lit (lit ++ s) = some s :=
  (matchLit_iff lit).mpr rfl

/- ------------------------------------------------------------------ -/
/- The version group: soundness, completeness, append-irrelevance.     -/
/- ------------------------------------------------------------------ -/

theorem matchVersion_exact (d1 d2 d3 r : List Char)
    (h1 : d1 ≠ []) (h2 : d2 ≠ []) (h3 : d3 ≠ [])
    (a1 : d1.all Char.isDigit = true) (a2 : d2.all Char.isDigit = true)
    (a3 : d3.all Char.isDigit = true) (hr : noDigitHead r = true) :
    matchVersion (d1 ++ '.' :: (d2 ++ '.' :: (d3 ++ r))) =
      some (d1 ++ '.' :: (d2 ++ '.' :: d3), r) := by
  have e1 : matchNum (d1 ++ '.' :: (d2 ++ '.' :: (d3 ++ r))) =
      some (d1, '.' :: (d2 ++ '.' :: (d3 ++ r))) :=
    matchNum_exact d1 _ h1 a1 (by simp [noDigitHead])
  have e2 : matchNum (d2 ++ '.' :: (d3 ++ r)) =
      some (d2, '.' :: (d3 ++ r)) :=
    matchNum_exact d2 _ h2 a2 (by simp [noDigitHead])
  have e3 : matchNum (d3 ++ r) = some (d3, r) :=
    matchNum_exact d3 r h3 a3 hr
  unfold matchVersion
  rw [e1]
  simp only [expectChar, if_true]
  rw [e2]
  simp only [expectChar, if_true]
  rw [e3]

theorem matchVersion_split {s t r : List Char}
    (h : matchVersion s = some (t, r)) :
    s = t ++ r ∧ noDigitHead r = true ∧ versionShape t := by
  unfold matchVersion at h
  cases e1 : matchNum s with
  | none => rw [e1] at h; exact absurd h (by simp)
  | some p1 =>
    obtain ⟨d1, r1⟩ := p1
    rw [e1] at h
    simp only at h
    cases e2 : expectChar '.' r1 with
    | none => rw [e2] at h; exact absurd h (by simp)
    | some r2 =>
      rw [e2] at h
      simp only at h
      cases e3 : matchNum r2 with
      | none => rw [e3] at h; exact absurd h (by simp)
      | some p2 =>
        obtain ⟨d2, r3⟩ := p2
        rw [e3] at h
        simp only at h
        cases e4 : expectChar '.' r3 with
        | none => rw [e4] at h; exact absurd h (by simp)
        | some r4 =>
          rw [e4] at h
          simp only at h
          cases e5 : matchNum r4 with
          | none => rw [e5] at h; exact absurd h (by simp)
          | some p3 =>
            obtain ⟨d3, r5⟩ := p3
            rw [e5] at h
            simp only [Option.some.injEq, Prod.mk.injEq] at h
            obtain ⟨ht, hrr⟩ := h
            obtain ⟨hs1, hn1, hd1, _⟩ := matchNum_split e1
            obtain ⟨hs2, hn2, hd2, _⟩ := matchNum_split e3
            obtain ⟨hs3, hn3, hd3, hr5⟩ := matchNum_split e5
            have hr1 : r1 = '.' :: r2 := by
              cases r1 with
              | nil => exact absurd e2 (by simp [expectChar])
              | cons b r1' =>
                by_cases hb : b = '.'
                · subst hb
                  simp only [expectChar, if_true, Option.some.injEq] at e2
                  rw [e2]
                · exact absurd e2 (by simp [expectChar, hb])
            have hr3 : r3 = '.' :: r4 := by
              cases r3 with
              | nil => exact absurd e4 (by simp [expectChar])
              | cons b r3' =>
                by_cases hb : b = '.'
                · subst hb
                  simp only [expectChar, if_true, Option.some.injEq] at e4
                  rw [e4]
                · exact absurd e4 (by simp [expectChar, hb])
            subst ht hrr
            refine ⟨?_, hr5, d1, d2, d3, hn1, hn2, hn3, hd1, hd2, hd3, rfl⟩
            rw [hs1, hr1, hs2, hr3, hs3]
            simp

theorem matchVersion_append (w : List Char) (c : Char) (x : List Char)
    (hc : c.isDigit = false) (hc2 : c ≠ '.') :
    matchVersion (w ++ c :: x) =
      (matchVersion w).map (fun p => (p.1, p.2 ++ c :: x)) := by
  unfold matchVersion
  rw [matchNum_append w c x hc]
  cases e1 : matchNum w with
  | none => simp
  | some p1 =>
    obtain ⟨d1, r1⟩ := p1
    simp only [Option.map_some']
    rw [expectChar_append '.' r1 c x hc2]
    cases e2 : expectChar '.' r1 with
    | none => simp
    | some r2 =>
      simp only [Option.map_some']
      rw [matchNum_append r2 c x hc]
      cases e3 : matchNum r2 with
      | none => simp
      | some p2 =>
        obtain ⟨d2, r3⟩ := p2
        simp only [Option.map_some']
        rw [expectChar_append '.' r3 c x hc2]
        cases e4 : expectChar '.' r3 with
        | none => simp
        | some r4 =>
          simp only [Option.map_some']
          rw [matchNum_append r4 c x hc]
          cases e5 : matchNum r4 with
          | none => simp
          | some p3 =>
            obtain ⟨d3, r5⟩ := p3
            simp

/- ------------------------------------------------------------------ -/
/- One-position attempts of the two whole patterns.                    -/
/- ------------------------------------------------------------------ -/

theorem matchUAAt_split {s t r : List Char} (h : matchUAAt s = some (t, r)) :
    s = uaLit ++ (t ++ r) ∧ noDigitHead r = true ∧ versionShape t := by
  unfold matchUAAt at h
  cases e : matchLit uaLit s with
  | none => rw [e] at h; exact absurd h (by simp)
  | some w =>
    rw [e] at h
    simp only at h
    obtain ⟨hw, hr, hv⟩ := matchVersion_split h
    exact ⟨by rw [(matchLit_iff uaLit).mp e, hw], hr, hv⟩

theorem matchUAAt_exact (t r : List Char) (hv : versionShape t)
    (hr : noDigitHead r = true) :
    matchUAAt (uaLit ++ (t ++ r)) = some (t, r) := by
  obtain ⟨d1, d2, d3, h1, h2, h3, a1, a2, a3, ht⟩ := hv
  subst ht
  unfold matchUAAt
  rw [matchLit_self]
  show matchVersion ((d1 ++ '.' :: (d2 ++ '.' :: d3)) ++ r) = _
  have e : (d1 ++ '.' :: (d2 ++ '.' :: d3)) ++ r =
      d1 ++ '.' :: (d2 ++ '.' :: (d3 ++ r)) := by simp
  rw [e, matchVersion_exact d1 d2 d3 r h1 h2 h3 a1 a2 a3 hr]

theorem matchUAAt_nil : matchUAAt [] = none := rfl

theorem matchUAAt_rem_length {s : List Char} {p : List Char × List Char}
    (h : matchUAAt s = some p) : p.2.length < s.length := by
  obtain ⟨t, r⟩ := p
  obtain ⟨hs, -, hv⟩ := matchUAAt_split h
  obtain ⟨d1, d2, d3, h1, -, -, -, -, -, ht⟩ := hv
  rw [hs]
  simp only [List.length_append]
  have : 0 < uaLit.length := by decide
  omega

theorem matchTarballAt_exact (d1 d2 d3 b post : List Char)
    (h1 : d1 ≠ []) (h2 : d2 ≠ []) (h3 : d3 ≠ []) (hb : b ≠ [])
    (a1 : d1.all Char.isDigit = true) (a2 : d2.all Char.isDigit = true)
    (a3 : d3.all Char.isDigit = true) (ab : b.all Char.isDigit = true) :
    matchTarballAt ('/' :: (d1 ++ '.' :: (d2 ++ '.' :: (d3 ++ '-' ::
        (b ++ '/' :: post))))) =
      some (d1 ++ '.' :: (d2 ++ '.' :: d3), post) := by
  unfold matchTarballAt
  simp only [expectChar, if_true]
  rw [matchVersion_exact d1 d2 d3 ('-' :: (b ++ '/' :: post)) h1 h2 h3 a1 a2 a3
    (by simp [noDigitHead])]
  simp only [expectChar, if_true]
  rw [matchNum_exact b ('/' :: post) hb ab (by simp [noDigitHead])]
  simp only [expectChar, if_true]

/- ------------------------------------------------------------------ -/
/- Search (re.search) lemmas.                                          -/
/- ------------------------------------------------------------------ -/

theorem searchUA_of_matchUAAt {s : List Char} {p : List Char × List Char}
    (h : matchUAAt s = some p) : searchUA s = some p.1 := by
  cases s with
  | nil => rw [matchUAAt_nil] at h; exact absurd h (by simp)
  | cons c rest => simp [searchUA, h]

theorem searchUA_append (p z : List Char)
    (h : ∀ j, j < p.length → matchUAAt ((p ++ z).drop j) = none) :
    searchUA (p ++ z) = searchUA z := by
  induction p with
  | nil => rfl
  | cons a p ih =>
    have h0 : matchUAAt (a :: (p ++ z)) = none := by
      have := h 0 (by simp)
      simpa using this
    have hrest : ∀ j, j < p.length → matchUAAt ((p ++ z).drop j) = none := by
      intro j hj
      have := h (j + 1) (by simp; omega)
      simpa using this
    calc searchUA ((a :: p) ++ z) = searchUA (p ++ z) := by
          simp only [List.cons_append, searchUA, List.append_eq]
          rw [h0]
      _ = searchUA z := ih hrest

theorem searchUA_none (s : List Char)
    (h : ∀ j, j < s.length → matchUAAt (s.drop j) = none) :
    searchUA s = none := by
  induction s with
  | nil => rfl
  | cons a s ih =>
    have h0 : matchUAAt (a :: s) = none := by simpa using h 0 (by simp)
    have hrest : ∀ j, j < s.length → matchUAAt (s.drop j) = none := by
      intro j hj
      have := h (j + 1) (by simp; omega)
      simpa using this
    simp only [searchUA, h0]
    exact ih hrest

theorem searchUA_ne_nil {s t : List Char} (h : searchUA s = some t) :
    t ≠ [] := by
  induction s with
  | nil => exact absurd h (by simp [searchUA])
  | cons a s ih =>
    unfold searchUA at h
    cases e : matchUAAt (a :: s) with
    | none => rw [e] at h; exact ih h
    | some p =>
      rw [e] at h
      simp only [Option.some.injEq] at h
      obtain ⟨-, -, hv⟩ := matchUAAt_split e
      obtain ⟨d1, d2, d3, h1, -, -, -, -, -, ht⟩ := hv
      subst h
      rw [ht]
      cases d1 with
      | nil => exact absurd rfl h1
      | cons x xs => simp

theorem searchTarball_of_matchTarballAt {s : List Char}
    {p : List Char × List Char} (h : matchTarballAt s = some p) :
    searchTarball s = some p.1 := by
  cases s with
  | nil => exact absurd h (by simp [matchTarballAt, expectChar])
  | cons c rest => simp [searchTarball, h]

theorem searchTarball_append (p z : List Char)
    (h : ∀ j, j < p.length → matchTarballAt ((p ++ z).drop j) = none) :
    searchTarball (p ++ z) = searchTarball z := by
  induction p with
  | nil => rfl
  | cons a p ih =>
    have h0 : matchTarballAt (a :: (p ++ z)) = none := by
      have := h 0 (by simp)
      simpa using this
    have hrest : ∀ j, j < p.length → matchTarballAt ((p ++ z).drop j) = none := by
      intro j hj
      have := h (j + 1) (by simp; omega)
      simpa using this
    calc searchTarball ((a :: p) ++ z) = searchTarball (p ++ z) := by
          simp only [List.cons_append, searchTarball, List.append_eq]
          rw [h0]
      _ = searchTarball z := ih hrest

theorem searchTarball_none (s : List Char)
    (h : ∀ j, j < s.length → matchTarballAt (s.drop j) = none) :
    searchTarball s = none := by
  induction s with
  | nil => rfl
  | cons a s ih =>
    have h0 : matchTarballAt (a :: s) = none := by simpa using h 0 (by simp)
    have hrest : ∀ j, j < s.length → matchTarballAt (s.drop j) = none := by
      intro j hj
      have := h (j + 1) (by simp; omega)
      simpa using this
    simp only [searchTarball, h0]
    exact ih hrest

/- ------------------------------------------------------------------ -/
/- Substitution (re.sub) lemmas.                                       -/
/- ------------------------------------------------------------------ -/

theorem subUAGo_nil (X : List Char) (fuel : Nat) : subUAGo X fuel [] = [] := by
  cases fuel <;> rfl

theorem subUAGo_fuel (X : List Char) : ∀ f1 f2 s,
    s.length ≤ f1 → s.length ≤ f2 → subUAGo X f1 s = subUAGo X f2 s := by
  intro f1
  induction f1 with
  | zero =>
    intro f2 s h1 _
    have : s = [] := List.eq_nil_of_length_eq_zero (Nat.le_zero.mp h1)
    subst this
    rw [subUAGo_nil, subUAGo_nil]
  | succ f1 ih =>
    intro f2 s h1 h2
    cases s with
    | nil => rw [subUAGo_nil, subUAGo_nil]
    | cons c rest =>
      cases f2 with
      | zero => simp at h2
      | succ g =>
        simp only [List.length_cons, Nat.succ_le_succ_iff] at h1 h2
        show (match matchUAAt (c :: rest) with
          | some p => uaLit ++ (X ++ subUAGo X f1 p.2)
          | none => c :: subUAGo X f1 rest) =
          (match matchUAAt (c :: rest) with
          | some p => uaLit ++ (X ++ subUAGo X g p.2)
          | none => c :: subUAGo X g rest)
        cases e : matchUAAt (c :: rest) with
        | none => simp only
                  rw [ih g rest h1 h2]
        | some p =>
          simp only
          have hl : p.2.length < rest.length + 1 := by
            simpa using matchUAAt_rem_length e
          rw [ih g p.2 (by omega) (by omega)]

theorem subUA_nil (X : List Char) : subUA X [] = [] := rfl

theorem subUA_cons_none {c : Char} {rest : List Char} (X : List Char)
    (h : matchUAAt (c :: rest) = none) :
    subUA X (c :: rest) = c :: subUA X rest := by
  show (match matchUAAt (c :: rest) with
    | some p => uaLit ++ (X ++ subUAGo X rest.length p.2)
    | none => c :: subUAGo X rest.length rest) = c :: subUA X rest
  rw [h]
  rfl

theorem subUA_cons_some {c : Char} {rest t after : List Char} (X : List Char)
    (h : matchUAAt (c :: rest) = some (t, after)) :
    subUA X (c :: rest) = uaLit ++ (X ++ subUA X after) := by
  show (match matchUAAt (c :: rest) with
    | some p => uaLit ++ (X ++ subUAGo X rest.length p.2)
    | none => c :: subUAGo X rest.length rest) = uaLit ++ (X ++ subUA X after)
  rw [h]
  show uaLit ++ (X ++ subUAGo X rest.length after) = _
  have hl : after.length < rest.length + 1 := by
    simpa using matchUAAt_rem_length h
  rw [subUAGo_fuel X rest.length after.length after (by omega) (le_refl _)]
  rfl

theorem noDigitHead_subUA (X s : List Char) (h : noDigitHead s = true) :
    noDigitHead (subUA X s) = true := by
  cases s with
  | nil => rw [subUA_nil]; rfl
  | cons c rest =>
    cases e : matchUAAt (c :: rest) with
    | none =>
      rw [subUA_cons_none X e]
      simpa [noDigitHead] using h
    | some p =>
      obtain ⟨t, after⟩ := p
      rw [subUA_cons_some X e]
      rfl

theorem subUA_id (X s : List Char) (h : searchUA s = none) : subUA X s = s := by
  induction s with
  | nil => rfl
  | cons c rest ih =>
    unfold searchUA at h
    cases e : matchUAAt (c :: rest) with
    | none =>
      rw [e] at h
      simp only at h
      rw [subUA_cons_none X e, ih h]
    | some p => rw [e] at h; exact absurd h (by simp)

theorem subUA_append (X p z : List Char)
    (h : ∀ j, j < p.length → matchUAAt ((p ++ z).drop j) = none) :
    subUA X (p ++ z) = p ++ subUA X z := by
  induction p with
  | nil => rfl
  | cons a p ih =>
    have h0 : matchUAAt (a :: (p ++ z)) = none := by
      have := h 0 (by simp)
      simpa using this
    have hrest : ∀ j, j < p.length → matchUAAt ((p ++ z).drop j) = none := by
      intro j hj
      have := h (j + 1) (by simp; omega)
      simpa using this
    calc subUA X ((a :: p) ++ z) = a :: subUA X (p ++ z) := by
          rw [List.cons_append, subUA_cons_none X h0]
      _ = (a :: p) ++ subUA X z := by rw [ih hrest, List.cons_append]

/- ------------------------------------------------------------------ -/
/- The literal "antigravity/" has no nontrivial self-overlap, so a     -/
/- failed attempt of VERSION_PATTERN stays failed when the text after  -/
/- a later literal occurrence is exchanged.                            -/
/- ------------------------------------------------------------------ -/

theorem uaLit_eq_cons : uaLit = 'a' :: uaTail := rfl

theorem uaLit_no_border :
    ∀ k, k < 12 → 0 < k → List.drop k uaLit ≠ List.take (12 - k) uaLit := by
  decide

theorem matchUAAt_none_transfer (u t r b : List Char) (hv : versionShape t)
    (hr : noDigitHead r = true)
    (h : matchUAAt (u ++ (uaLit ++ (t ++ r))) = none) :
    matchUAAt (u ++ (uaLit ++ b)) = none := by
  cases u with
  | nil =>
    rw [List.nil_append] at h
    rw [matchUAAt_exact t r hv hr] at h
    exact absurd h (by simp)
  | cons c u' =>
    cases e : matchLit uaLit ((c :: u') ++ (uaLit ++ b)) with
    | none =>
      unfold matchUAAt
      rw [e]
    | some rem =>
      have heq : (c :: u') ++ (uaLit ++ b) = uaLit ++ rem :=
        (matchLit_iff uaLit).mp e
      have h12 : uaLit.length = 12 := by decide
      have ht2 : List.take 12 (uaLit ++ rem) = uaLit := by
        conv_lhs => rw [← h12]
        rw [List.take_left]
      by_cases hk : (c :: u').length < 12
      · exfalso
        have ht1 : List.take 12 ((c :: u') ++ (uaLit ++ b)) =
            (c :: u') ++ List.take (12 - (c :: u').length) uaLit := by
          rw [List.take_append_eq_append_take,
            List.take_of_length_le (show (c :: u').length ≤ 12 by omega),
            List.take_append_eq_append_take,
            (show 12 - (c :: u').length - uaLit.length = 0 by omega),
            List.take_zero, List.append_nil]
        have htake : (c :: u') ++ List.take (12 - (c :: u').length) uaLit =
            uaLit := by rw [← ht1, heq, ht2]
        have hdrop : List.drop (c :: u').length uaLit =
            List.take (12 - (c :: u').length) uaLit := by
          conv_lhs => rw [← htake]
          rw [List.drop_left]
        exact uaLit_no_border (c :: u').length hk (by simp) hdrop
      · have ht1 : List.take 12 ((c :: u') ++ (uaLit ++ b)) =
            List.take 12 (c :: u') := by
          rw [List.take_append_eq_append_take,
            (show 12 - (c :: u').length = 0 by omega),
            List.take_zero, List.append_nil]
        have htk : List.take 12 (c :: u') = uaLit := by rw [← ht1, heq, ht2]
        have hsplit : c :: u' = uaLit ++ List.drop 12 (c :: u') := by
          conv_lhs => rw [← List.take_append_drop 12 (c :: u')]
          rw [htk]
        rw [hsplit, List.append_assoc] at h
        have hada : ('a' : Char).isDigit = false := by decide
        have hadp : ('a' : Char) ≠ '.' := by decide
        have hh : matchVersion (List.drop 12 (c :: u') ++ (uaLit ++ (t ++ r))) =
            none := by
          unfold matchUAAt at h
          rw [matchLit_self] at h
          simpa using h
        have e1 : uaLit ++ (t ++ r) = 'a' :: (uaTail ++ (t ++ r)) := rfl
        rw [e1, matchVersion_append _ 'a' _ hada hadp] at hh
        have hw : matchVersion (List.drop 12 (c :: u')) = none := by
          cases hmv : matchVersion (List.drop 12 (c :: u')) with
          | none => rfl
          | some p => rw [hmv] at hh; exact absurd hh (by simp)
        rw [hsplit, List.append_assoc]
        unfold matchUAAt
        rw [matchLit_self]
        show matchVersion (List.drop 12 (c :: u') ++ (uaLit ++ b)) = none
        have e2 : uaLit ++ b = 'a' :: (uaTail ++ b) := rfl
        rw [e2, matchVersion_append _ 'a' _ hada hadp, hw]
        rfl

theorem subUA_decomp (X : List Char) : ∀ s : List Char,
    (searchUA s).isSome = true →
    ∃ p t r, s = p ++ (uaLit ++ (t ++ r)) ∧ versionShape t ∧
      noDigitHead r = true ∧
      subUA X s = p ++ (uaLit ++ (X ++ subUA X r)) := by
  intro s
  induction s with
  | nil => intro h; simp [searchUA] at h
  | cons c rest ih =>
    intro h
    cases e : matchUAAt (c :: rest) with
    | some q =>
      obtain ⟨t, after⟩ := q
      obtain ⟨hs, hr, hv⟩ := matchUAAt_split e
      refine ⟨[], t, after, by simpa using hs, hv, hr, ?_⟩
      rw [subUA_cons_some X e]
      simp
    | none =>
      have h' : (searchUA rest).isSome = true := by
        unfold searchUA at h
        rw [e] at h
        simpa using h
      obtain ⟨p, t, r, hs, hv, hr, hsub⟩ := ih h'
      refine ⟨c :: p, t, r, by rw [List.cons_append, ← hs], hv, hr, ?_⟩
      rw [subUA_cons_none X e, hsub, List.cons_append]

theorem matchUAAt_none_subUA (X : List Char) {c : Char} {rest : List Char}
    (h : matchUAAt (c :: rest) = none) :
    matchUAAt (c :: subUA X rest) = none := by
  cases hs : searchUA rest with
  | none => rw [subUA_id X rest hs]; exact h
  | some t0 =>
    obtain ⟨p, t, r, hrest, hv, hr, hsub⟩ :=
      subUA_decomp X rest (by rw [hs]; rfl)
    rw [hsub]
    have h' : matchUAAt ((c :: p) ++ (uaLit ++ (t ++ r))) = none := by
      rw [List.cons_append, ← hrest]
      exact h
    have htr := matchUAAt_none_transfer (c :: p) t r (X ++ subUA X r) hv hr h'
    rw [List.cons_append] at htr
    exact htr

/- Every content with a VERSION_PATTERN match reads back exactly X after
   VERSION_PATTERN.sub with replacement antigravity/X. -/
theorem searchUA_subUA (X : List Char) (hvX : versionShape X) :
    ∀ s : List Char, (searchUA s).isSome = true →
    searchUA (subUA X s) = some X := by
  intro s
  induction s with
  | nil => intro h; simp [searchUA] at h
  | cons c rest ih =>
    intro h
    cases e : matchUAAt (c :: rest) with
    | some q =>
      obtain ⟨t, after⟩ := q
      obtain ⟨-, hr, -⟩ := matchUAAt_split e
      rw [subUA_cons_some X e]
      have hnd : noDigitHead (subUA X after) = true :=
        noDigitHead_subUA X after hr
      have hm : matchUAAt (uaLit ++ (X ++ subUA X after)) =
          some (X, subUA X after) := matchUAAt_exact X (subUA X after) hvX hnd
      simpa using searchUA_of_matchUAAt hm
    | none =>
      have h' : (searchUA rest).isSome = true := by
        unfold searchUA at h
        rw [e] at h
        simpa using h
      rw [subUA_cons_none X e]
      have hnone := matchUAAt_none_subUA X e
      show searchUA (c :: subUA X rest) = some X
      unfold searchUA
      rw [hnone]
      exact ih h'

/- ------------------------------------------------------------------ -/
/- Helper facts about update_version and about heads.                  -/
/- ------------------------------------------------------------------ -/

theorem subUA_of_match {s t after : List Char} (X : List Char)
    (h : matchUAAt s = some (t, after)) :
    subUA X s = uaLit ++ (X ++ subUA X after) := by
  cases s with
  | nil => rw [matchUAAt_nil] at h; exact absurd h (by simp)
  | cons c rest => exact subUA_cons_some X h

theorem noDigitHead_append_uaLit (sep z : List Char)
    (hsep : noDigitHead sep = true) :
    noDigitHead (sep ++ (uaLit ++ z)) = true := by
  cases sep with
  | nil => rfl
  | cons c s => simpa [noDigitHead] using hsep

theorem update_version_some_ok (v c : List Char) (dry : Bool) :
    (update_version v dry (some c)).ok = true := by
  show (if c = subUA v c then (⟨true, false, 1, some c⟩ : UpdateResult)
      else if dry then ⟨true, false, 1, some c⟩
      else ⟨true, true, 1, some (subUA v c)⟩).ok = true
  split
  · rfl
  · split <;> rfl

theorem update_version_reads_le (v : List Char) (dry : Bool)
    (file : Option (List Char)) : (update_version v dry file).reads ≤ 1 := by
  cases file with
  | none => exact Nat.zero_le 1
  | some c =>
    show (if c = subUA v c then (⟨true, false, 1, some c⟩ : UpdateResult)
        else if dry then ⟨true, false, 1, some c⟩
        else ⟨true, true, 1, some (subUA v c)⟩).reads ≤ 1
    split
    · exact le_refl 1
    · split <;> exact le_refl 1

theorem update_version_fileAfter (v c : List Char) :
    (update_version v false (some c)).fileAfter = some (subUA v c) := by
  show (if c = subUA v c then (⟨true, false, 1, some c⟩ : UpdateResult)
      else if (false : Bool) then ⟨true, false, 1, some c⟩
      else ⟨true, true, 1, some (subUA v c)⟩).fileAfter = some (subUA v c)
  split
  · next h => show some c = some (subUA v c); rw [← h]
  · rfl

theorem update_version_unchanged (v c : List Char) (dry : Bool)
    (h : subUA v c = c) :
    update_version v dry (some c) = ⟨true, false, 1, some c⟩ := by
  show (if c = subUA v c then (⟨true, false, 1, some c⟩ : UpdateResult)
      else if dry then ⟨true, false, 1, some c⟩
      else ⟨true, true, 1, some (subUA v c)⟩) = ⟨true, false, 1, some c⟩
  rw [if_pos h.symm]

/- ------------------------------------------------------------------ -/
/- Claim theorems.                                                     -/
/- ------------------------------------------------------------------ -/

/-- Claim C2: for every file contents containing an occurrence of
antigravity/X with X matching three dot-separated digit runs — written as
the decomposition p ++ "antigravity/" ++ d1.d2.d3 ++ post, where the
occurrence is the leftmost match (no earlier position matches) and X is
the full captured token (post does not extend the final digit run) —
get_current_version on a tracked file with those contents returns X. -/
theorem claim_C2_read_current (p d1 d2 d3 post : List Char)
    (h1 : d1 ≠ []) (h2 : d2 ≠ []) (h3 : d3 ≠ [])
    (a1 : d1.all Char.isDigit = true) (a2 : d2.all Char.isDigit = true)
    (a3 : d3.all Char.isDigit = true)
    (hpost : noDigitHead post = true)
    (hfirst : ∀ j, j < p.length →
      matchUAAt ((p ++ (uaLit ++ (d1 ++ '.' :: (d2 ++ '.' ::
        (d3 ++ post))))).drop j) = none) :
    get_current_version
        (some (p ++ (uaLit ++ (d1 ++ '.' :: (d2 ++ '.' :: (d3 ++ post)))))) =
      some (d1 ++ '.' :: (d2 ++ '.' :: d3)) := by
  have hv : versionShape (d1 ++ '.' :: (d2 ++ '.' :: d3)) :=
    ⟨d1, d2, d3, h1, h2, h3, a1, a2, a3, rfl⟩
  show searchUA (p ++ (uaLit ++ (d1 ++ '.' :: (d2 ++ '.' :: (d3 ++ post))))) = _
  rw [searchUA_append p _ hfirst]
  have hm := matchUAAt_exact (d1 ++ '.' :: (d2 ++ '.' :: d3)) post hv hpost
  have hassoc : (d1 ++ '.' :: (d2 ++ '.' :: d3)) ++ post =
      d1 ++ '.' :: (d2 ++ '.' :: (d3 ++ post)) := by simp
  rw [hassoc] at hm
  simpa using searchUA_of_matchUAAt hm

theorem claim_C2_read_current_witness :
    get_current_version
        (some (['U', 'A', ' '] ++ (uaLit ++ (['1'] ++ '.' :: (['1', '5'] ++
          '.' :: (['8'] ++ [' ', 'e', 'n', 'd'])))))) =
      some (['1'] ++ '.' :: (['1', '5'] ++ '.' :: ['8'])) :=
  claim_C2_read_current ['U', 'A', ' '] ['1'] ['1', '5'] ['8'] [' ', 'e', 'n', 'd']
    (by decide) (by decide) (by decide) (by decide) (by decide) (by decide)
    (by decide) (by decide)

/-- Claim C3: for every URL containing a path segment of the form
/A.B.C-digits/ (three-component version, hyphen, nonempty digit build
suffix, closing slash), extract_version_from_url returns A.B.C, discarding
the build suffix, provided the segment is the leftmost such match; and when
no position of the URL matches the tarball pattern it returns none. -/
theorem claim_C3_extract_url (p d1 d2 d3 b post : List Char)
    (h1 : d1 ≠ []) (h2 : d2 ≠ []) (h3 : d3 ≠ []) (hb : b ≠ [])
    (a1 : d1.all Char.isDigit = true) (a2 : d2.all Char.isDigit = true)
    (a3 : d3.all Char.isDigit = true) (ab : b.all Char.isDigit = true)
    (hfirst : ∀ j, j < p.length →
      matchTarballAt ((p ++ '/' :: (d1 ++ '.' :: (d2 ++ '.' :: (d3 ++ '-' ::
        (b ++ '/' :: post))))).drop j) = none) :
    extract_version_from_url
        (p ++ '/' :: (d1 ++ '.' :: (d2 ++ '.' :: (d3 ++ '-' ::
          (b ++ '/' :: post))))) =
      some (d1 ++ '.' :: (d2 ++ '.' :: d3)) ∧
    ∀ u : List Char, (∀ j, j < u.length → matchTarballAt (u.drop j) = none) →
      extract_version_from_url u = none := by
  constructor
  · show searchTarball _ = _
    rw [searchTarball_append p _ hfirst]
    simpa using searchTarball_of_matchTarballAt
      (matchTarballAt_exact d1 d2 d3 b post h1 h2 h3 hb a1 a2 a3 ab)
  · intro u hu
    exact searchTarball_none u hu

theorem claim_C3_extract_url_witness :
    extract_version_from_url
        ("https://x/stable".toList ++ '/' :: (['1'] ++ '.' :: (['1', '6'] ++
          '.' :: (['2'] ++ '-' :: (['9', '9', '8', '8', '7', '7', '6', '6'] ++
          '/' :: "linux-x64/Antigravity.tar.gz".toList))))) =
      some (['1'] ++ '.' :: (['1', '6'] ++ '.' :: ['2'])) ∧
    extract_version_from_url "https://example.com/latest".toList = none :=
  ⟨(claim_C3_extract_url "https://x/stable".toList ['1'] ['1', '6'] ['2']
      ['9', '9', '8', '8', '7', '7', '6', '6'] "linux-x64/Antigravity.tar.gz".toList
      (by decide) (by decide) (by decide) (by decide) (by decide) (by decide)
      (by decide) (by decide) (by decide)).1,
   (claim_C3_extract_url [] ['1'] ['1'] ['1'] ['1'] []
      (by decide) (by decide) (by decide) (by decide) (by decide) (by decide)
      (by decide) (by decide) (by decide)).2
     "https://example.com/latest".toList (by decide)⟩

/-- Claim C4: round-trip — for contents containing an antigravity token
occurrence and any version token X = x1.x2.x3, patching via update_version
to X and reading the resulting contents back with get_current_version
yields exactly X; the non-dry-run update leaves the file holding the
substituted contents. -/
theorem claim_C4_roundtrip (content x1 x2 x3 : List Char)
    (h1 : x1 ≠ []) (h2 : x2 ≠ []) (h3 : x3 ≠ [])
    (a1 : x1.all Char.isDigit = true) (a2 : x2.all Char.isDigit = true)
    (a3 : x3.all Char.isDigit = true)
    (hocc : (get_current_version (some content)).isSome = true) :
    get_current_version
        (some (subUA (x1 ++ '.' :: (x2 ++ '.' :: x3)) content)) =
      some (x1 ++ '.' :: (x2 ++ '.' :: x3)) ∧
    (update_version (x1 ++ '.' :: (x2 ++ '.' :: x3)) false
        (some content)).fileAfter =
      some (subUA (x1 ++ '.' :: (x2 ++ '.' :: x3)) content) := by
  refine ⟨?_, update_version_fileAfter _ content⟩
  have hv : versionShape (x1 ++ '.' :: (x2 ++ '.' :: x3)) :=
    ⟨x1, x2, x3, h1, h2, h3, a1, a2, a3, rfl⟩
  exact searchUA_subUA _ hv content hocc

theorem claim_C4_roundtrip_witness :
    get_current_version
        (some (subUA (['9'] ++ '.' :: (['9'] ++ '.' :: ['9']))
          "v antigravity/1.0.0 w".toList)) =
      some (['9'] ++ '.' :: (['9'] ++ '.' :: ['9'])) ∧
    (update_version (['9'] ++ '.' :: (['9'] ++ '.' :: ['9'])) false
        (some "v antigravity/1.0.0 w".toList)).fileAfter =
      some (subUA (['9'] ++ '.' :: (['9'] ++ '.' :: ['9']))
        "v antigravity/1.0.0 w".toList) :=
  claim_C4_roundtrip "v antigravity/1.0.0 w".toList ['9'] ['9'] ['9']
    (by decide) (by decide) (by decide) (by decide) (by decide) (by decide)
    (by decide)

/-- Claim C5: idempotence — on tracked-file contents whose single
antigravity occurrence carries token t = d1.d2.d3 (the current version),
substituting t again changes nothing: the new contents are byte-identical,
update_version reports success without writing, and the file is unchanged,
in dry-run and in normal mode alike. -/
theorem claim_C5_idempotent (p d1 d2 d3 r : List Char) (dry : Bool)
    (h1 : d1 ≠ []) (h2 : d2 ≠ []) (h3 : d3 ≠ [])
    (a1 : d1.all Char.isDigit = true) (a2 : d2.all Char.isDigit = true)
    (a3 : d3.all Char.isDigit = true)
    (hr : noDigitHead r = true)
    (hfirst : ∀ j, j < p.length →
      matchUAAt ((p ++ (uaLit ++ ((d1 ++ '.' :: (d2 ++ '.' :: d3)) ++
        r))).drop j) = none)
    (hrest : searchUA r = none) :
    get_current_version
        (some (p ++ (uaLit ++ ((d1 ++ '.' :: (d2 ++ '.' :: d3)) ++ r)))) =
      some (d1 ++ '.' :: (d2 ++ '.' :: d3)) ∧
    subUA (d1 ++ '.' :: (d2 ++ '.' :: d3))
        (p ++ (uaLit ++ ((d1 ++ '.' :: (d2 ++ '.' :: d3)) ++ r))) =
      p ++ (uaLit ++ ((d1 ++ '.' :: (d2 ++ '.' :: d3)) ++ r)) ∧
    update_version (d1 ++ '.' :: (d2 ++ '.' :: d3)) dry
        (some (p ++ (uaLit ++ ((d1 ++ '.' :: (d2 ++ '.' :: d3)) ++ r)))) =
      ⟨true, false, 1,
        some (p ++ (uaLit ++ ((d1 ++ '.' :: (d2 ++ '.' :: d3)) ++ r)))⟩ := by
  have hv : versionShape (d1 ++ '.' :: (d2 ++ '.' :: d3)) :=
    ⟨d1, d2, d3, h1, h2, h3, a1, a2, a3, rfl⟩
  have hm := matchUAAt_exact (d1 ++ '.' :: (d2 ++ '.' :: d3)) r hv hr
  have hsub : subUA (d1 ++ '.' :: (d2 ++ '.' :: d3))
      (p ++ (uaLit ++ ((d1 ++ '.' :: (d2 ++ '.' :: d3)) ++ r))) =
      p ++ (uaLit ++ ((d1 ++ '.' :: (d2 ++ '.' :: d3)) ++ r)) := by
    rw [subUA_append _ p _ hfirst]
    congr 1
    rw [subUA_of_match _ hm]
    congr 1
    congr 1
    exact subUA_id _ r hrest
  refine ⟨?_, hsub, update_version_unchanged _ _ dry hsub⟩
  show searchUA _ = _
  rw [searchUA_append p _ hfirst]
  simpa using searchUA_of_matchUAAt hm

theorem claim_C5_idempotent_witness :
    get_current_version
        (some (['x', ' '] ++ (uaLit ++ ((['1'] ++ '.' :: (['2'] ++ '.' ::
          ['3'])) ++ [' ', 'y'])))) =
      some (['1'] ++ '.' :: (['2'] ++ '.' :: ['3'])) ∧
    subUA (['1'] ++ '.' :: (['2'] ++ '.' :: ['3']))
        (['x', ' '] ++ (uaLit ++ ((['1'] ++ '.' :: (['2'] ++ '.' :: ['3'])) ++
          [' ', 'y']))) =
      ['x', ' '] ++ (uaLit ++ ((['1'] ++ '.' :: (['2'] ++ '.' :: ['3'])) ++
        [' ', 'y'])) ∧
    update_version (['1'] ++ '.' :: (['2'] ++ '.' :: ['3'])) false
        (some (['x', ' '] ++ (uaLit ++ ((['1'] ++ '.' :: (['2'] ++ '.' ::
          ['3'])) ++ [' ', 'y'])))) =
      ⟨true, false, 1,
        some (['x', ' '] ++ (uaLit ++ ((['1'] ++ '.' :: (['2'] ++ '.' ::
          ['3'])) ++ [' ', 'y'])))⟩ :=
  claim_C5_idempotent ['x', ' '] ['1'] ['2'] ['3'] [' ', 'y'] false
    (by decide) (by decide) (by decide) (by decide) (by decide) (by decide)
    (by decide) (by decide) (by decide)

/-- Claim C6: in dry-run mode the tracked file is never written, whatever
the computed contents are; in non-dry-run mode the write happens if and
only if the substituted contents differ from the current contents (and a
dry run leaves the file exactly as it was). -/
theorem claim_C6_dry_run_gating (v c : List Char) (file : Option (List Char)) :
    (update_version v true file).written = false ∧
    ((update_version v false (some c)).written = true ↔ subUA v c ≠ c) ∧
    (update_version v true (some c)).fileAfter = some c := by
  refine ⟨?_, ?_, ?_⟩
  · cases file with
    | none => rfl
    | some w =>
      show (if w = subUA v w then (⟨true, false, 1, some w⟩ : UpdateResult)
          else if (true : Bool) then ⟨true, false, 1, some w⟩
          else ⟨true, true, 1, some (subUA v w)⟩).written = false
      split
      · rfl
      · rfl
  · show (if c = subUA v c then (⟨true, false, 1, some c⟩ : UpdateResult)
        else if (false : Bool) then ⟨true, false, 1, some c⟩
        else ⟨true, true, 1, some (subUA v c)⟩).written = true ↔ subUA v c ≠ c
    by_cases h : c = subUA v c
    · rw [if_pos h]
      constructor
      · intro hfalse
        exact absurd hfalse (by simp)
      · intro hne
        exact absurd h.symm hne
    · rw [if_neg h]
      constructor
      · intro _
        exact fun hh => h hh.symm
      · intro _
        rfl
  · show (if c = subUA v c then (⟨true, false, 1, some c⟩ : UpdateResult)
        else if (true : Bool) then ⟨true, false, 1, some c⟩
        else ⟨true, true, 1, some (subUA v c)⟩).fileAfter = some c
    split
    · rfl
    · rfl

/-- Claim C10: with two antigravity occurrences carrying tokens t1 and t2
(set apart by a non-matching separator and tail), get_current_version
returns the token of the earliest occurrence, t1, while the substitution
of update_version rewrites every occurrence to the new version X, and
update_version reports success (no error) for multiple matches. -/
theorem claim_C10_multiple_occurrences (p sep r t1 t2 X : List Char)
    (ht1 : versionShape t1) (ht2 : versionShape t2) (_hX : versionShape X)
    (hsep : noDigitHead sep = true) (hr : noDigitHead r = true)
    (hfirst : ∀ j, j < p.length →
      matchUAAt ((p ++ (uaLit ++ (t1 ++ (sep ++ (uaLit ++
        (t2 ++ r)))))).drop j) = none)
    (hmid : ∀ j, j < sep.length →
      matchUAAt ((sep ++ (uaLit ++ (t2 ++ r))).drop j) = none)
    (hrest : searchUA r = none) :
    get_current_version
        (some (p ++ (uaLit ++ (t1 ++ (sep ++ (uaLit ++ (t2 ++ r))))))) =
      some t1 ∧
    subUA X (p ++ (uaLit ++ (t1 ++ (sep ++ (uaLit ++ (t2 ++ r)))))) =
      p ++ (uaLit ++ (X ++ (sep ++ (uaLit ++ (X ++ r))))) ∧
    ∀ dry : Bool, (update_version X dry
      (some (p ++ (uaLit ++ (t1 ++ (sep ++ (uaLit ++ (t2 ++ r)))))))).ok =
        true := by
  have hmidnd : noDigitHead (sep ++ (uaLit ++ (t2 ++ r))) = true :=
    noDigitHead_append_uaLit sep _ hsep
  have hm1 := matchUAAt_exact t1 (sep ++ (uaLit ++ (t2 ++ r))) ht1 hmidnd
  have hm2 := matchUAAt_exact t2 r ht2 hr
  refine ⟨?_, ?_, fun dry => update_version_some_ok X _ dry⟩
  · show searchUA _ = some t1
    rw [searchUA_append p _ hfirst]
    simpa using searchUA_of_matchUAAt hm1
  · rw [subUA_append X p _ hfirst]
    congr 1
    rw [subUA_of_match X hm1]
    congr 1
    congr 1
    rw [subUA_append X sep _ hmid]
    congr 1
    rw [subUA_of_match X hm2]
    congr 1
    congr 1
    exact subUA_id X r hrest

theorem claim_C10_multiple_occurrences_witness :
    get_current_version
        (some (['A', ' '] ++ (uaLit ++ (['1', '.', '2', '.', '3'] ++
          ([' ', 'B', ' '] ++ (uaLit ++ (['4', '.', '5', '.', '6'] ++
          [' ', 'C']))))))) =
      some ['1', '.', '2', '.', '3'] ∧
    subUA ['7', '.', '8', '.', '9']
        (['A', ' '] ++ (uaLit ++ (['1', '.', '2', '.', '3'] ++
          ([' ', 'B', ' '] ++ (uaLit ++ (['4', '.', '5', '.', '6'] ++
          [' ', 'C'])))))) =
      ['A', ' '] ++ (uaLit ++ (['7', '.', '8', '.', '9'] ++
        ([' ', 'B', ' '] ++ (uaLit ++ (['7', '.', '8', '.', '9'] ++
        [' ', 'C']))))) ∧
    ∀ dry : Bool, (update_version ['7', '.', '8', '.', '9'] dry
      (some (['A', ' '] ++ (uaLit ++ (['1', '.', '2', '.', '3'] ++
        ([' ', 'B', ' '] ++ (uaLit ++ (['4', '.', '5', '.', '6'] ++
        [' ', 'C'])))))))).ok = true :=
  claim_C10_multiple_occurrences ['A', ' '] [' ', 'B', ' '] [' ', 'C']
    ['1', '.', '2', '.', '3'] ['4', '.', '5', '.', '6'] ['7', '.', '8', '.', '9']
    ⟨['1'], ['2'], ['3'], by decide, by decide, by decide, by decide, by decide,
      by decide, by decide⟩
    ⟨['4'], ['5'], ['6'], by decide, by decide, by decide, by decide, by decide,
      by decide, by decide⟩
    ⟨['7'], ['8'], ['9'], by decide, by decide, by decide, by decide, by decide,
      by decide, by decide⟩
    (by decide) (by decide) (by decide) (by decide) (by decide)

/-- Claim C1: the process exit code is 0 exactly when the current version
was read, the latest version resolved, and either the two are equal or the
run is not in check mode (the update or its dry-run report then succeeds);
it is 1 on every read/resolve/parse failure and on a check-mode mismatch,
and 0 and 1 are the only exit codes. -/
theorem claim_C1_exit_codes (args : Args) (file fetched : Option (List Char)) :
    ((script_main args file fetched).exit = 0 ↔
      (truthy (get_current_version file) = true ∧
       truthy (resolve_latest args fetched) = true ∧
       ((get_current_version file).getD [] =
          (resolve_latest args fetched).getD [] ∨ args.check = false))) ∧
    ((script_main args file fetched).exit = 0 ∨
      (script_main args file fetched).exit = 1) := by
  cases h1 : truthy (get_current_version file) with
  | false =>
    constructor
    · simp [script_main, h1]
    · simp [script_main, h1]
  | true =>
    cases h2 : truthy (resolve_latest args fetched) with
    | false =>
      constructor
      · simp [script_main, h1, h2]
      · simp [script_main, h1, h2]
    | true =>
      by_cases h3 : (get_current_version file).getD [] =
          (resolve_latest args fetched).getD []
      · constructor
        · simp [script_main, h1, h2, h3]
        · simp [script_main, h1, h2, h3]
      · cases h4 : args.check with
        | true =>
          constructor
          · simp [script_main, h1, h2, h3, h4]
          · simp [script_main, h1, h2, h3, h4]
        | false =>
          cases file with
          | none => simp [get_current_version, truthy] at h1
          | some c =>
            constructor
            · simp [script_main, h1, h2, h3, h4, update_version_some_ok]
            · simp [script_main, h1, h2, h3, h4, update_version_some_ok]

/-- Claim C7: in check mode the tracked file is never written and is left
exactly as it was, for every outcome; and whenever the current and latest
versions both resolve but differ, the check-mode run exits 1. -/
theorem claim_C7_check_mode (args : Args) (file fetched : Option (List Char))
    (hc : args.check = true) :
    (script_main args file fetched).wrote = false ∧
    (script_main args file fetched).fileAfter = file ∧
    (∀ cur l : List Char, get_current_version file = some cur →
      resolve_latest args fetched = some l → cur ≠ l →
      (script_main args file fetched).exit = 1) := by
  cases h1 : truthy (get_current_version file) with
  | false =>
    refine ⟨?_, ?_, ?_⟩ <;> simp [script_main, h1]
  | true =>
    cases h2 : truthy (resolve_latest args fetched) with
    | false =>
      refine ⟨?_, ?_, ?_⟩ <;> simp [script_main, h1, h2]
    | true =>
      by_cases h3 : (get_current_version file).getD [] =
          (resolve_latest args fetched).getD []
      · refine ⟨?_, ?_, ?_⟩
        · simp [script_main, h1, h2, h3]
        · simp [script_main, h1, h2, h3]
        · intro cur l hcur hl hne
          rw [hcur, hl] at h3
          simp only [Option.getD_some] at h3
          exact absurd h3 hne
      · refine ⟨?_, ?_, ?_⟩ <;> simp [script_main, h1, h2, h3, hc]

theorem claim_C7_check_mode_witness :
    (script_main
      (Args.mk true false (some ['9', '.', '9', '.', '9']) none)
      (some (uaLit ++ ['1', '.', '2', '.', '3'])) none).wrote = false ∧
    (script_main
      (Args.mk true false (some ['9', '.', '9', '.', '9']) none)
      (some (uaLit ++ ['1', '.', '2', '.', '3'])) none).fileAfter =
        some (uaLit ++ ['1', '.', '2', '.', '3']) ∧
    (script_main
      (Args.mk true false (some ['9', '.', '9', '.', '9']) none)
      (some (uaLit ++ ['1', '.', '2', '.', '3'])) none).exit = 1 := by
  have h := claim_C7_check_mode
    (Args.mk true false (some ['9', '.', '9', '.', '9']) none)
    (some (uaLit ++ ['1', '.', '2', '.', '3'])) none rfl
  exact ⟨h.1, h.2.1, h.2.2 ['1', '.', '2', '.', '3'] ['9', '.', '9', '.', '9']
    (by decide) (by decide) (by decide)⟩

/-- Claim C8 counterexample: supplying the version flag with an empty
value together with a url makes the run use the url source, so the first
supplied source does not win — an empty explicit value is skipped by the
script's truthiness tests. -/
theorem claim_C8_counterexample :
    (Args.mk false false (some [])
        (some ['/', '1', '.', '2', '.', '3', '-', '4', '/'])).version.isSome =
      true ∧
    resolve_latest (Args.mk false false (some [])
        (some ['/', '1', '.', '2', '.', '3', '-', '4', '/'])) none ≠
      (Args.mk false false (some [])
        (some ['/', '1', '.', '2', '.', '3', '-', '4', '/'])).version := by
  decide

/-- Claim C8 (amended): exactly one latest-version source is used per
invocation, chosen by static precedence with the first one present winning,
where "present" means supplied with a non-empty value: a truthy version
flag beats the url flag, which beats the live page fetch; supplying more
than one flag is not an error. -/
theorem claim_C8_source_priority (args : Args) (fetched : Option (List Char)) :
    (truthy args.version = true → resolve_latest args fetched = args.version) ∧
    (truthy args.version = false → truthy args.url = true →
      resolve_latest args fetched =
        extract_version_from_url (args.url.getD [])) ∧
    (truthy args.version = false → truthy args.url = false →
      resolve_latest args fetched = fetched) := by
  refine ⟨?_, ?_, ?_⟩
  · intro hv
    simp [resolve_latest, hv]
  · intro hv hu
    simp [resolve_latest, hv, hu]
  · intro hv hu
    simp [resolve_latest, hv, hu]

theorem claim_C8_source_priority_witness :
    resolve_latest (Args.mk false false (some ['1'])
        (some ['/', '1', '.', '2', '.', '3', '-', '4', '/'])) none =
      some ['1'] ∧
    resolve_latest (Args.mk false false none
        (some ['/', '1', '.', '2', '.', '3', '-', '4', '/'])) (some ['7']) =
      extract_version_from_url ['/', '1', '.', '2', '.', '3', '-', '4', '/'] ∧
    resolve_latest (Args.mk false false none none) (some ['7']) = some ['7'] :=
  ⟨(claim_C8_source_priority (Args.mk false false (some ['1'])
      (some ['/', '1', '.', '2', '.', '3', '-', '4', '/'])) none).1 (by decide),
   (claim_C8_source_priority (Args.mk false false none
      (some ['/', '1', '.', '2', '.', '3', '-', '4', '/'])) (some ['7'])).2.1
     (by decide) (by decide),
   (claim_C8_source_priority (Args.mk false false none none)
      (some ['7'])).2.2 (by decide) (by decide)⟩

/-- Claim C9 counterexample: a run that goes on to update the file reads
the tracked file's contents twice — once in get_current_version and once
more in update_version — so "read exactly once per run" fails. -/
theorem claim_C9_counterexample :
    (script_main (Args.mk false false (some ['9', '.', '9', '.', '9']) none)
      (some (uaLit ++ ['1', '.', '2', '.', '3'])) none).reads = 2 := by
  decide

/-- Claim C9 (amended): per run the tracked file's contents are read at
most twice (once by get_current_version, and once more by update_version
when an update is attempted), and rewritten at most once. -/
theorem claim_C9_reads_bound (args : Args) (file fetched : Option (List Char)) :
    (script_main args file fetched).reads ≤ 2 := by
  cases file with
  | none =>
    simp [script_main, get_current_version, truthy]
  | some c =>
    cases h1 : truthy (get_current_version (some c)) with
    | false => simp [script_main, h1]
    | true =>
      cases h2 : truthy (resolve_latest args fetched) with
      | false => simp [script_main, h1, h2]
      | true =>
        by_cases h3 : (get_current_version (some c)).getD [] =
            (resolve_latest args fetched).getD []
        · simp [script_main, h1, h2, h3]
        · cases h4 : args.check with
          | true => simp [script_main, h1, h2, h3, h4]
          | false =>
            have hb := update_version_reads_le
              ((resolve_latest args fetched).getD []) args.dry_run (some c)
            simp [script_main, h1, h2, h3, h4]
            omega
